import Mathlib

/-!
Shallow embedding of `src/src/python/twitter/common/config/properties.py`,
a reader/writer for java.util.Properties formatted data.

Strings are modelled as `List Char`.  Python's whitespace class (`str.strip`,
the regex class `\s`) and line-break class (`str.splitlines`) are modelled by
the character predicates `isSpace` and `isLineBreak` below, which enumerate
the Unicode code points CPython uses for those operations.
-/

namespace Properties

abbrev Str := List Char

/-- Python whitespace: the code points for which `str.isspace()` holds and
which the regex class `\s` matches. -/
def isSpace (c : Char) : Bool :=
  c.toNat = 0x09 || c.toNat = 0x0A || c.toNat = 0x0B || c.toNat = 0x0C ||
  c.toNat = 0x0D || c.toNat = 0x1C || c.toNat = 0x1D || c.toNat = 0x1E ||
  c.toNat = 0x1F || c.toNat = 0x20 || c.toNat = 0x85 || c.toNat = 0xA0 ||
  c.toNat = 0x1680 || (0x2000 ≤ c.toNat && c.toNat ≤ 0x200A) ||
  c.toNat = 0x2028 || c.toNat = 0x2029 || c.toNat = 0x202F ||
  c.toNat = 0x205F || c.toNat = 0x3000

/-- The line boundaries recognised by Python's `str.splitlines`. -/
def isLineBreak (c : Char) : Bool :=
  c.toNat = 0x0A || c.toNat = 0x0B || c.toNat = 0x0C || c.toNat = 0x0D ||
  c.toNat = 0x1C || c.toNat = 0x1D || c.toNat = 0x1E || c.toNat = 0x85 ||
  c.toNat = 0x2028 || c.toNat = 0x2029

/-- `'='` or `':'`: the characters of the class in `_EXPLICIT_KV_SEP`. -/
def isSepChar (c : Char) : Bool := c = '=' || c = ':'

/-- The character class `[=:\s]` shared by `dump.escape` and
`_parse.normalize`. -/
def classChar (c : Char) : Bool := isSepChar c || isSpace c

/-- `str.lstrip()`. -/
def lstrip (s : Str) : Str := s.dropWhile isSpace

/-- `str.rstrip()`. -/
def rstrip (s : Str) : Str := (s.reverse.dropWhile isSpace).reverse

/-- `str.strip()`. -/
def strip (s : Str) : Str := rstrip (lstrip s)

/-- `str.splitlines()`, accumulator holds the current line reversed; a
`"\r\n"` pair counts as a single boundary. -/
def splitlinesAux : List Char → List Char → List Str
  | acc, [] => if acc.isEmpty then [] else [acc.reverse]
  | acc, '\r' :: '\n' :: rest => acc.reverse :: splitlinesAux [] rest
  | acc, c :: rest =>
    if isLineBreak c then acc.reverse :: splitlinesAux [] rest
    else splitlinesAux (c :: acc) rest

/-- `str.splitlines()`. -/
def splitlines (s : Str) : List Str := splitlinesAux [] s

/-- `re.sub(r'([=:\s])', r'\\\1', token)`: the body of `dump.escape`. -/
def escape : Str → Str
  | [] => []
  | c :: rest => if classChar c then '\\' :: c :: escape rest else c :: escape rest

/-- `re.sub(r'\\([:=\s])', r'\1', s)`: left-to-right non-overlapping
replacement of a backslash-escaped separator/whitespace character by the bare
character, as performed inside `_parse.normalize`. -/
def unescape : Str → Str
  | [] => []
  | [c] => [c]
  | c₁ :: c₂ :: rest =>
    if c₁ = '\\' ∧ classChar c₂ = true then c₂ :: unescape rest
    else c₁ :: unescape (c₂ :: rest)

/-- `_parse.normalize`: `re.sub(r'\\([:=\s])', r'\1', atom.strip())`. -/
def normalize (atom : Str) : Str := unescape (strip atom)

/-- Scanner for `re.search` of `_EXPLICIT_KV_SEP = re.compile(r'(?<!\\)[=:]')`:
`prev` is the character immediately before the scan position. -/
def findSepAux : Option Char → Nat → Str → Option Nat
  | _, _, [] => none
  | prev, i, c :: rest =>
    if isSepChar c = true ∧ prev ≠ some '\\' then some i
    else findSepAux (some c) (i + 1) rest

/-- Position of the first unescaped `=` or `:`
(`Properties._EXPLICIT_KV_SEP.search(line)`). -/
def findExplicitSep (l : Str) : Option Nat := findSepAux none 0 l

/-- `line.find(' ')`, as an `Option`. -/
def findSpace (l : Str) : Option Nat := l.findIdx? (fun c => c == ' ')

/-- `_parse.parse_line`. -/
def parseLine (line : Str) : Option (Str × Str) :=
  if line = [] then none
  else if line.head? = some '#' ∨ line.head? = some '!' then none
  else
    match findExplicitSep line with
    | some p => some (normalize (line.take p), normalize (line.drop (p + 1)))
    | none =>
      match findSpace line with
      | some p => some (normalize (line.take p), normalize (line.drop p))
      | none => some (normalize line, [])

/-- `_parse.coalesce_lines`, with the generator's accumulation buffer made
explicit: returns the yielded logical lines together with the buffer left
over when the input is exhausted (which the generator silently discards). -/
def coalState : Str → List Str → List Str × Str
  | buf, [] => ([], buf)
  | buf, l :: ls =>
    if (strip l).getLast? = some '\\' then
      coalState (buf ++ (strip l).dropLast) ls
    else
      let y := if buf = [] then strip l else buf ++ rstrip l
      let res := coalState [] ls
      (y :: res.1, res.2)

/-- The logical lines yielded by `_parse.coalesce_lines`. -/
def coalesceLines (lines : List Str) : List Str := (coalState [] lines).1

abbrev PropMap := List (Str × Str)

/-- `props[key] = value` on the insertion-ordered dict used by `_parse`:
an existing key keeps its position and gets the new value, a new key is
appended at the end. -/
def insertProp : PropMap → Str → Str → PropMap
  | [], k, v => [(k, v)]
  | (k', v') :: rest, k, v =>
    if k' = k then (k', v) :: rest else (k', v') :: insertProp rest k v

/-- Lookup in the ordered map. -/
def lookupProp : PropMap → Str → Option Str
  | [], _ => none
  | (k', v') :: rest, k => if k' = k then some v' else lookupProp rest k

/-- One iteration of the loop in `_parse`. -/
def parseStep (props : PropMap) (line : Str) : PropMap :=
  match parseLine line with
  | some kv => insertProp props kv.1 kv.2
  | none => props

/-- `Properties._parse`. -/
def parseProps (lines : List Str) : PropMap := (coalesceLines lines).foldl parseStep []

/-- `Properties.load` applied to string contents:
`_parse(contents.splitlines())`. -/
def loadFromString (s : Str) : PropMap := parseProps (splitlines s)

/-- `'%s=%s' % (escape(str(k)), escape(str(v)))`: the text of one dumped
entry without its terminating newline. -/
def entryLine (kv : Str × Str) : Str := escape kv.1 ++ '=' :: escape kv.2

/-- The line `'%s=%s\n' % (escape(str(k)), escape(str(v)))` written by
`dump.write` for one entry. -/
def dumpLine (kv : Str × Str) : Str := escape kv.1 ++ '=' :: (escape kv.2 ++ ['\n'])

/-- The full text written by `dump.write`: one line per entry, in map order. -/
def dumpString (props : PropMap) : Str := props.foldl (fun acc kv => acc ++ dumpLine kv) []

/-- The argument accepted by `load`: an object with a callable `read`
(modelled by the text it yields), a string, or anything else. -/
inductive LoadSource where
  | stream (contents : Str)
  | text (contents : Str)
  | invalid (descr : Str)

/-- Message of the `TypeError` raised by `load`. -/
def loadErrorMsg (d : Str) : Str :=
  "Can only process data from a string or a readable object, given: ".toList ++ d

/-- `Properties.load`, with the `TypeError` made explicit in an `Except`. -/
def load : LoadSource → Except Str PropMap
  | .stream c => .ok (parseProps (splitlines c))
  | .text c => .ok (parseProps (splitlines c))
  | .invalid d => .error (loadErrorMsg d)

/-- The destination accepted by `dump`: an object with a callable `write`,
a file-system path string, or anything else. -/
inductive DumpDest where
  | stream
  | path (p : Str)
  | invalid (descr : Str)

/-- Message of the `TypeError` raised by `dump`. -/
def dumpErrorMsg (d : Str) : Str :=
  "Can only dump data to a path or a writable object, given: ".toList ++ d

/-- `Properties.dump`, returning the text written (`.error` for the
`TypeError` branch). -/
def dump (props : PropMap) : DumpDest → Except Str Str
  | .stream => .ok (dumpString props)
  | .path _ => .ok (dumpString props)
  | .invalid d => .error (dumpErrorMsg d)

/-- `sepFrom prev l i`: position `i` of `l` holds an `=` or `:` that the
lookbehind `(?<!\\)` accepts when the character just before `l` is `prev`. -/
def sepFrom (prev : Option Char) (l : Str) (i : Nat) : Bool :=
  (l[i]?.any isSepChar) && !((if i = 0 then prev else l[i-1]?) == some '\\')

/-- An unescaped separator at position `i`: an `=` or `:` not immediately
preceded by a backslash. -/
def unescapedSepAt (l : Str) (i : Nat) : Bool := sepFrom none l i

/-- A physical line the coalescer treats as a continuation: its stripped form
ends in a backslash. -/
def contLine (l : Str) : Prop := (strip l).getLast? = some '\\'

instance (l : Str) : Decidable (contLine l) := by unfold contLine; infer_instance

/-- What a continuation line contributes to the accumulation buffer:
`line.strip()[:-1]`. -/
def contPart (l : Str) : Str := (strip l).dropLast

/-- A token (key or value) whose dumped form survives the load pipeline
unchanged: no line-break characters anywhere, and the last character is
neither whitespace nor a backslash. -/
def goodToken (t : Str) : Bool :=
  t.all (fun c => !(isLineBreak c)) &&
  t.getLast?.all (fun c => !(isSpace c) && !(c == '\\'))

/-- A key acceptable for the round trip: a good token not beginning with the
comment markers `#` or `!`. -/
def goodKey (k : Str) : Bool :=
  goodToken k && !(k.head? == some '#') && !(k.head? == some '!')

/-- An entry acceptable for the round trip. -/
def goodEntry (kv : Str × Str) : Bool := goodKey kv.1 && goodToken kv.2

/-! ## Basic character-class lemmas -/

theorem classChar_of_isSepChar {c : Char} (h : isSepChar c = true) : classChar c = true := by
  simp [classChar, h]

theorem classChar_of_isSpace {c : Char} (h : isSpace c = true) : classChar c = true := by
  simp [classChar, h]

theorem not_isSpace_of_not_classChar {c : Char} (h : classChar c = false) :
    isSpace c = false := by
  simp [classChar] at h
  exact h.2

theorem not_isSepChar_of_not_classChar {c : Char} (h : classChar c = false) :
    isSepChar c = false := by
  simp [classChar] at h
  exact h.1

theorem isSpace_backslash : isSpace '\\' = false := by decide

theorem classChar_backslash : classChar '\\' = false := by decide

/-! ## `strip` lemmas -/

theorem lstrip_eq_self {s : Str} (h : ∀ c, s.head? = some c → isSpace c = false) :
    lstrip s = s := by
  cases s with
  | nil => rfl
  | cons c rest =>
    have := h c rfl
    simp [lstrip, List.dropWhile_cons, this]

theorem rstrip_eq_self {s : Str} (h : ∀ c, s.getLast? = some c → isSpace c = false) :
    rstrip s = s := by
  show (lstrip s.reverse).reverse = s
  have hrev : ∀ c, s.reverse.head? = some c → isSpace c = false := by
    intro c hc
    rw [List.head?_reverse] at hc
    exact h c hc
  rw [lstrip_eq_self hrev, List.reverse_reverse]

theorem strip_eq_self {s : Str} (hh : ∀ c, s.head? = some c → isSpace c = false)
    (hl : ∀ c, s.getLast? = some c → isSpace c = false) : strip s = s := by
  unfold strip
  rw [lstrip_eq_self hh, rstrip_eq_self hl]

/-! ## `escape` structure lemmas -/

theorem escape_cons_class {c : Char} {t : Str} (h : classChar c = true) :
    escape (c :: t) = '\\' :: c :: escape t := by
  simp [escape, h]

theorem escape_cons_plain {c : Char} {t : Str} (h : classChar c = false) :
    escape (c :: t) = c :: escape t := by
  simp [escape, h]

theorem escape_ne_nil {t : Str} (h : t ≠ []) : escape t ≠ [] := by
  cases t with
  | nil => exact absurd rfl h
  | cons c rest =>
    by_cases hc : classChar c = true
    · rw [escape_cons_class hc]; simp
    · rw [escape_cons_plain (by simpa using hc)]; simp

theorem escape_head? {t : Str} {c : Char} (h : (escape t).head? = some c) :
    c = '\\' ∨ t.head? = some c := by
  cases t with
  | nil => simp [escape] at h
  | cons c₀ rest =>
    by_cases hc : classChar c₀ = true
    · rw [escape_cons_class hc] at h
      simp at h
      exact Or.inl h.symm
    · rw [escape_cons_plain (by simpa using hc)] at h
      simp at h
      simp [h]

theorem escape_head?_not_space {t : Str} {c : Char} (h : (escape t).head? = some c) :
    isSpace c = false := by
  cases t with
  | nil => simp [escape] at h
  | cons c₀ rest =>
    by_cases hc : classChar c₀ = true
    · rw [escape_cons_class hc] at h
      simp at h
      rw [← h]
      exact isSpace_backslash
    · rw [escape_cons_plain (by simpa using hc)] at h
      simp at h
      rw [← h]
      exact not_isSpace_of_not_classChar (by simpa using hc)

theorem escape_getLast? {t : Str} (h : t ≠ []) : (escape t).getLast? = t.getLast? := by
  induction t with
  | nil => exact absurd rfl h
  | cons c rest ih =>
    cases rest with
    | nil =>
      by_cases hc : classChar c = true
      · rw [escape_cons_class hc]; rfl
      · rw [escape_cons_plain (by simpa using hc)]; rfl
    | cons d rest' =>
      have hne : escape (d :: rest') ≠ [] := escape_ne_nil (by simp)
      have step : (escape (c :: d :: rest')).getLast? = (escape (d :: rest')).getLast? := by
        by_cases hc : classChar c = true
        · rw [escape_cons_class hc]
          show (['\\', c] ++ escape (d :: rest')).getLast? = _
          exact List.getLast?_append_of_ne_nil _ hne
        · rw [escape_cons_plain (by simpa using hc)]
          show ([c] ++ escape (d :: rest')).getLast? = _
          exact List.getLast?_append_of_ne_nil _ hne
      rw [step, ih (by simp)]
      show _ = (c :: d :: rest').getLast?
      rw [List.getLast?_cons_cons]

theorem escape_mem {t : Str} {c : Char} (h : c ∈ escape t) : c = '\\' ∨ c ∈ t := by
  induction t with
  | nil => simp [escape] at h
  | cons c₀ rest ih =>
    by_cases hc : classChar c₀ = true
    · rw [escape_cons_class hc] at h
      simp at h
      rcases h with h | h | h
      · exact Or.inl h
      · exact Or.inr (by simp [h])
      · rcases ih h with h' | h'
        · exact Or.inl h'
        · exact Or.inr (by simp [h'])
    · rw [escape_cons_plain (by simpa using hc)] at h
      simp at h
      rcases h with h | h
      · exact Or.inr (by simp [h])
      · rcases ih h with h' | h'
        · exact Or.inl h'
        · exact Or.inr (by simp [h'])

/-! ## `unescape` inverts `escape` -/

theorem unescape_nil : unescape [] = [] := rfl

theorem unescape_one (c : Char) : unescape [c] = [c] := rfl

theorem unescape_cons₂ (c₁ c₂ : Char) (rest : Str) :
    unescape (c₁ :: c₂ :: rest) =
      if c₁ = '\\' ∧ classChar c₂ = true then c₂ :: unescape rest
      else c₁ :: unescape (c₂ :: rest) := rfl

theorem escape_head?_shape (t : Str) {d : Char} (h : (escape t).head? = some d) :
    d = '\\' ∨ classChar d = false := by
  cases t with
  | nil => simp [escape] at h
  | cons e rest =>
    by_cases he : classChar e = true
    · rw [escape_cons_class he] at h
      simp at h
      exact Or.inl h.symm
    · rw [escape_cons_plain (by simpa using he)] at h
      simp at h
      right
      rw [← h]
      simpa using he

theorem unescape_escape (t : Str) : unescape (escape t) = t := by
  induction t with
  | nil => rfl
  | cons c rest ih =>
    by_cases hc : classChar c = true
    · rw [escape_cons_class hc, unescape_cons₂, if_pos ⟨rfl, hc⟩, ih]
    · have hc' : classChar c = false := by simpa using hc
      rw [escape_cons_plain hc']
      cases hr : escape rest with
      | nil =>
        have : rest = [] := by
          by_contra hne
          exact escape_ne_nil hne hr
        subst this
        rfl
      | cons d rest' =>
        have hd : d = '\\' ∨ classChar d = false :=
          escape_head?_shape rest (by rw [hr]; rfl)
        have hcond : ¬(c = '\\' ∧ classChar d = true) := by
          rintro ⟨h1, h2⟩
          rcases hd with h | h
          · rw [h, classChar_backslash] at h2
            exact Bool.false_ne_true h2
          · rw [h] at h2
            exact Bool.false_ne_true h2
        rw [unescape_cons₂, if_neg hcond, ← hr, ih]

/-! ## Characterisation of the separator search -/

theorem sepFrom_cons_zero (prev : Option Char) (c : Char) (rest : Str) :
    sepFrom prev (c :: rest) 0 = (isSepChar c && !(prev == some '\\')) := by
  simp [sepFrom]

theorem sepFrom_cons_succ (prev : Option Char) (c : Char) (rest : Str) (j : Nat) :
    sepFrom prev (c :: rest) (j + 1) = sepFrom (some c) rest j := by
  cases j with
  | zero => simp [sepFrom]
  | succ j' => simp [sepFrom]

theorem sepFrom_nil (prev : Option Char) (i : Nat) : sepFrom prev [] i = false := by
  simp [sepFrom]

theorem findSepAux_shift (l : Str) : ∀ (prev : Option Char) (i : Nat),
    findSepAux prev i l = (findSepAux prev 0 l).map (· + i) := by
  induction l with
  | nil => intro prev i; simp [findSepAux]
  | cons c rest ih =>
    intro prev i
    by_cases hc : isSepChar c = true ∧ prev ≠ some '\\'
    · simp [findSepAux, hc]
    · rw [findSepAux, findSepAux, if_neg hc, if_neg hc, ih (some c) (i + 1),
        ih (some c) (0 + 1), Option.map_map]
      congr 1
      funext x
      simp
      omega

theorem findSepAux_zero_iff (l : Str) : ∀ (prev : Option Char) (p : Nat),
    findSepAux prev 0 l = some p ↔
      (sepFrom prev l p = true ∧ ∀ j, j < p → sepFrom prev l j = false) := by
  induction l with
  | nil =>
    intro prev p
    constructor
    · intro h
      simp [findSepAux] at h
    · rintro ⟨h1, _⟩
      rw [sepFrom_nil] at h1
      exact absurd h1 (by simp)
  | cons c rest ih =>
    intro prev p
    by_cases hc : isSepChar c = true ∧ prev ≠ some '\\'
    · have hstep : findSepAux prev 0 (c :: rest) = some 0 := by
        simp [findSepAux, hc]
      rw [hstep]
      have hzero : sepFrom prev (c :: rest) 0 = true := by
        rw [sepFrom_cons_zero, hc.1]
        simp
        intro h
        exact absurd h hc.2
      constructor
      · intro h
        injection h with h
        subst h
        exact ⟨hzero, fun j hj => absurd hj (by omega)⟩
      · rintro ⟨h1, h2⟩
        cases p with
        | zero => rfl
        | succ q => exact absurd hzero (by rw [h2 0 (by omega)]; simp)
    · have hzero : sepFrom prev (c :: rest) 0 = false := by
        rw [sepFrom_cons_zero]
        by_cases hs : isSepChar c = true
        · have : prev = some '\\' := by
            by_contra hne
            exact hc ⟨hs, hne⟩
          simp [this, hs]
        · simp [Bool.eq_false_iff.mpr hs]
      have hstep : findSepAux prev 0 (c :: rest) =
          (findSepAux (some c) 0 rest).map (· + 1) := by
        rw [findSepAux, if_neg hc, findSepAux_shift]
      rw [hstep]
      cases p with
      | zero =>
        constructor
        · intro h
          rcases Option.map_eq_some'.mp h with ⟨q, _, hq⟩
          omega
        · rintro ⟨h1, _⟩
          rw [hzero] at h1
          exact absurd h1 (by simp)
      | succ q =>
        have hmap : ((findSepAux (some c) 0 rest).map (· + 1) = some (q + 1)) ↔
            findSepAux (some c) 0 rest = some q := by
          constructor
          · intro h
            rcases Option.map_eq_some'.mp h with ⟨q', hq', he⟩
            have : q' = q := by omega
            rw [← this]
            exact hq'
          · intro h
            rw [h]
            rfl
        rw [hmap, ih (some c) q]
        constructor
        · rintro ⟨h1, h2⟩
          refine ⟨by rw [sepFrom_cons_succ]; exact h1, ?_⟩
          intro j hj
          cases j with
          | zero => exact hzero
          | succ j' => rw [sepFrom_cons_succ]; exact h2 j' (by omega)
        · rintro ⟨h1, h2⟩
          refine ⟨by rw [sepFrom_cons_succ] at h1; exact h1, ?_⟩
          intro j hj
          have := h2 (j + 1) (by omega)
          rw [sepFrom_cons_succ] at this
          exact this

theorem findExplicitSep_iff (l : Str) (p : Nat) :
    findExplicitSep l = some p ↔
      (unescapedSepAt l p = true ∧ ∀ j, j < p → unescapedSepAt l j = false) := by
  unfold findExplicitSep unescapedSepAt
  exact findSepAux_zero_iff l none p

/-! ## The separator search over an escaped token -/

theorem findSepAux_escape_append (t : Str) : ∀ (prev : Option Char) (i : Nat) (suffix : Str),
    findSepAux prev i (escape t ++ suffix) =
      findSepAux ((escape t).getLast?.or prev) (i + (escape t).length) suffix := by
  induction t with
  | nil => intro prev i suffix; simp [escape]
  | cons c rest ih =>
    intro prev i suffix
    by_cases hc : classChar c = true
    · rw [escape_cons_class hc]
      have h1 : ¬(isSepChar '\\' = true ∧ prev ≠ some '\\') := by
        rintro ⟨h, _⟩
        simp [isSepChar] at h
      have h2 : ¬(isSepChar c = true ∧ some '\\' ≠ some '\\') := by
        rintro ⟨_, h⟩
        exact h rfl
      show findSepAux prev i ('\\' :: c :: (escape rest ++ suffix)) = _
      rw [findSepAux, if_neg h1, findSepAux, if_neg h2, ih (some c) (i + 1 + 1) suffix]
      congr 1
      · cases hr : escape rest with
        | nil => simp [hr, Option.or]
        | cons d rest' =>
          rw [List.getLast?_cons_cons, List.getLast?_cons_cons]
          have hs : ((d :: rest').getLast?).isSome := by
            rw [List.getLast?_isSome]
            simp
          rcases Option.isSome_iff_exists.mp hs with ⟨e, he⟩
          rw [he]
          rfl
      · simp
        omega
    · have hc' : classChar c = false := by simpa using hc
      rw [escape_cons_plain hc']
      have h1 : ¬(isSepChar c = true ∧ prev ≠ some '\\') := by
        rintro ⟨h, _⟩
        rw [not_isSepChar_of_not_classChar hc'] at h
        exact Bool.false_ne_true h
      show findSepAux prev i (c :: (escape rest ++ suffix)) = _
      rw [findSepAux, if_neg h1, ih (some c) (i + 1) suffix]
      congr 1
      · cases hr : escape rest with
        | nil => simp [hr, Option.or]
        | cons d rest' =>
          rw [List.getLast?_cons_cons]
          have hs : ((d :: rest').getLast?).isSome := by
            rw [List.getLast?_isSome]
            simp
          rcases Option.isSome_iff_exists.mp hs with ⟨e, he⟩
          rw [he]
          rfl
      · simp
        omega

/-! ## `splitlines` lemmas -/

theorem splitlinesAux_nil (acc : Str) :
    splitlinesAux acc [] = if acc.isEmpty then [] else [acc.reverse] := rfl

theorem splitlinesAux_newline (acc : Str) (rest : List Char) :
    splitlinesAux acc ('\n' :: rest) = acc.reverse :: splitlinesAux [] rest := rfl

theorem splitlinesAux_plain {c : Char} (h : isLineBreak c = false) (acc : Str)
    (rest : List Char) : splitlinesAux acc (c :: rest) = splitlinesAux (c :: acc) rest := by
  have hcr : c ≠ '\r' := by
    intro e
    subst e
    simp [isLineBreak] at h
  rw [splitlinesAux.eq_def]
  split
  · rename_i heq
    exact absurd heq (by simp)
  · rename_i heq
    injection heq with h1 h2
    exact absurd h1 hcr
  · rename_i hnm heq
    injection heq with h1 h2
    subst h1
    subst h2
    rw [if_neg (by simp [h])]

theorem splitlinesAux_line {l : Str} (h : ∀ c ∈ l, isLineBreak c = false) :
    ∀ (acc : Str) (rest : List Char),
      splitlinesAux acc (l ++ '\n' :: rest) = (acc.reverse ++ l) :: splitlinesAux [] rest := by
  induction l with
  | nil =>
    intro acc rest
    simp [splitlinesAux_newline]
  | cons c l' ih =>
    intro acc rest
    have hc : isLineBreak c = false := h c (by simp)
    show splitlinesAux acc (c :: (l' ++ '\n' :: rest)) = _
    rw [splitlinesAux_plain hc, ih (fun d hd => h d (by simp [hd]))]
    simp

theorem splitlines_join (lines : List Str)
    (h : ∀ l ∈ lines, ∀ c ∈ l, isLineBreak c = false) :
    splitlines ((lines.map (· ++ ['\n'])).flatten) = lines := by
  induction lines with
  | nil => rfl
  | cons l ls ih =>
    show splitlinesAux [] ((l ++ ['\n']) ++ (ls.map (· ++ ['\n'])).flatten) = l :: ls
    rw [List.append_assoc]
    show splitlinesAux [] (l ++ '\n' :: (ls.map (· ++ ['\n'])).flatten) = l :: ls
    rw [splitlinesAux_line (h l (by simp))]
    simp only [List.reverse_nil, List.nil_append, List.cons.injEq, true_and]
    exact ih (fun l' hl' => h l' (by simp [hl']))

/-! ## Coalescer lemmas -/

theorem coalState_nil (buf : Str) : coalState buf [] = ([], buf) := rfl

theorem coalState_cont {l : Str} (h : contLine l) (buf : Str) (ls : List Str) :
    coalState buf (l :: ls) = coalState (buf ++ contPart l) ls := by
  unfold contLine at h
  simp [coalState, h, contPart]

theorem coalState_flush {l : Str} (h : ¬ contLine l) (buf : Str) (ls : List Str) :
    coalState buf (l :: ls) =
      ((if buf = [] then strip l else buf ++ rstrip l) :: (coalState [] ls).1,
        (coalState [] ls).2) := by
  unfold contLine at h
  simp [coalState, h]

theorem coalState_append (xs : List Str) : ∀ (ys : List Str) (buf : Str),
    coalState buf (xs ++ ys) =
      ((coalState buf xs).1 ++ (coalState (coalState buf xs).2 ys).1,
        (coalState (coalState buf xs).2 ys).2) := by
  induction xs with
  | nil => intro ys buf; simp [coalState_nil]
  | cons l xs' ih =>
    intro ys buf
    by_cases hl : contLine l
    · rw [show (l :: xs') ++ ys = l :: (xs' ++ ys) from rfl, coalState_cont hl,
        coalState_cont hl, ih]
    · rw [show (l :: xs') ++ ys = l :: (xs' ++ ys) from rfl, coalState_flush hl,
        coalState_flush hl, ih]
      simp

theorem coalState_all_cont (ls : List Str) : ∀ (buf : Str), (∀ l ∈ ls, contLine l) →
    coalState buf ls = ([], buf ++ (ls.map contPart).flatten) := by
  induction ls with
  | nil => intro buf _; simp [coalState_nil]
  | cons l ls' ih =>
    intro buf h
    rw [coalState_cont (h l (by simp)), ih _ (fun l' hl' => h l' (by simp [hl']))]
    simp

theorem coalesceLines_clean (ls : List Str) (h : ∀ l ∈ ls, strip l = l ∧ ¬ contLine l) :
    coalesceLines ls = ls := by
  induction ls with
  | nil => rfl
  | cons l ls' ih =>
    unfold coalesceLines
    rw [coalState_flush (h l (by simp)).2]
    simp only [if_pos rfl, (h l (by simp)).1]
    exact congrArg (l :: ·) (ih (fun l' hl' => h l' (by simp [hl'])))

/-! ## Good tokens and the shape of a dumped entry line -/

theorem goodToken_spec {t : Str} (h : goodToken t = true) :
    (∀ c ∈ t, isLineBreak c = false) ∧
      (∀ c, t.getLast? = some c → isSpace c = false ∧ c ≠ '\\') := by
  unfold goodToken at h
  rw [Bool.and_eq_true, List.all_eq_true] at h
  constructor
  · intro c hc
    have := h.1 c hc
    simpa using this
  · intro c hc
    have := h.2
    rw [hc] at this
    simp [Option.all] at this
    exact ⟨this.1, this.2⟩

theorem goodKey_spec {k : Str} (h : goodKey k = true) :
    goodToken k = true ∧ k.head? ≠ some '#' ∧ k.head? ≠ some '!' := by
  unfold goodKey at h
  rw [Bool.and_eq_true, Bool.and_eq_true] at h
  refine ⟨h.1.1, ?_, ?_⟩
  · have := h.1.2
    simpa using this
  · have := h.2
    simpa using this

theorem entryLine_ne_nil (kv : Str × Str) : entryLine kv ≠ [] := by
  unfold entryLine
  cases h : escape kv.1 with
  | nil => simp
  | cons c rest => simp

theorem entryLine_head? {kv : Str × Str} {c : Char} (hk : goodKey kv.1 = true)
    (h : (entryLine kv).head? = some c) : isSpace c = false ∧ c ≠ '#' ∧ c ≠ '!' := by
  unfold entryLine at h
  rcases goodKey_spec hk with ⟨-, hk1, hk2⟩
  cases he : escape kv.1 with
  | nil =>
    rw [he] at h
    simp at h
    rw [← h]
    refine ⟨by decide, by decide, by decide⟩
  | cons d rest =>
    rw [he] at h
    simp at h
    have hd : (escape kv.1).head? = some c := by rw [he, ← h]; rfl
    refine ⟨escape_head?_not_space hd, ?_, ?_⟩
    · rcases escape_head? hd with h' | h'
      · rw [h']; decide
      · intro e
        rw [e] at h'
        exact hk1 h'
    · rcases escape_head? hd with h' | h'
      · rw [h']; decide
      · intro e
        rw [e] at h'
        exact hk2 h'

theorem entryLine_getLast? (kv : Str × Str) (hv : goodToken kv.2 = true) :
    ∃ c, (entryLine kv).getLast? = some c ∧ isSpace c = false ∧ c ≠ '\\' := by
  unfold entryLine
  by_cases hvv : kv.2 = []
  · refine ⟨'=', ?_, by decide, by decide⟩
    rw [hvv]
    rw [List.getLast?_append_of_ne_nil _ (by simp)]
    simp [escape]
  · have hne : escape kv.2 ≠ [] := escape_ne_nil hvv
    have hlast : (escape kv.1 ++ '=' :: escape kv.2).getLast? = (escape kv.2).getLast? := by
      rw [List.getLast?_append_of_ne_nil _ (by simp)]
      show ([ '=' ] ++ escape kv.2).getLast? = _
      rw [List.getLast?_append_of_ne_nil _ hne]
    rw [escape_getLast? hvv] at hlast
    have hsome : (kv.2).getLast?.isSome := by
      rw [List.getLast?_isSome]
      exact hvv
    rcases Option.isSome_iff_exists.mp hsome with ⟨e, he⟩
    rcases (goodToken_spec hv).2 e he with ⟨h1, h2⟩
    exact ⟨e, by rw [hlast, he], h1, h2⟩

theorem entryLine_strip {kv : Str × Str} (hk : goodKey kv.1 = true)
    (hv : goodToken kv.2 = true) : strip (entryLine kv) = entryLine kv := by
  rcases entryLine_getLast? kv hv with ⟨e, he, he1, _⟩
  apply strip_eq_self
  · intro c hc
    exact (entryLine_head? hk hc).1
  · intro c hc
    rw [he] at hc
    injection hc with hc
    rw [← hc]
    exact he1

theorem entryLine_not_cont {kv : Str × Str} (hk : goodKey kv.1 = true)
    (hv : goodToken kv.2 = true) : ¬ contLine (entryLine kv) := by
  rcases entryLine_getLast? kv hv with ⟨e, he, _, he2⟩
  unfold contLine
  rw [entryLine_strip hk hv, he]
  intro hcon
  injection hcon with hcon
  exact he2 hcon

/-! ## Parsing a dumped entry line recovers the entry -/

theorem normalize_escape {t : Str} (h : ∀ c, t.getLast? = some c → isSpace c = false) :
    normalize (escape t) = t := by
  have h1 : ∀ c, (escape t).head? = some c → isSpace c = false := by
    intro c hc
    exact escape_head?_not_space hc
  have h2 : ∀ c, (escape t).getLast? = some c → isSpace c = false := by
    intro c hc
    by_cases ht : t = []
    · rw [ht] at hc
      simp [escape] at hc
    · rw [escape_getLast? ht] at hc
      exact h c hc
  unfold normalize
  rw [strip_eq_self h1 h2, unescape_escape]

theorem findExplicitSep_entryLine {kv : Str × Str} (hk : goodToken kv.1 = true) :
    findExplicitSep (entryLine kv) = some (escape kv.1).length := by
  show findSepAux none 0 (escape kv.1 ++ ('=' :: escape kv.2)) = _
  rw [findSepAux_escape_append]
  have hprev : (escape kv.1).getLast?.or none ≠ some '\\' := by
    by_cases hk0 : kv.1 = []
    · rw [hk0]
      simp [escape]
    · rw [escape_getLast? hk0]
      have hsome : (kv.1).getLast?.isSome := by
        rw [List.getLast?_isSome]
        exact hk0
      rcases Option.isSome_iff_exists.mp hsome with ⟨e, he⟩
      rcases (goodToken_spec hk).2 e he with ⟨_, h2⟩
      rw [he, Option.or_none]
      intro hco
      injection hco with hco
      exact h2 hco
  rw [findSepAux, if_pos ⟨by decide, hprev⟩, Nat.zero_add]

theorem take_entryLine (kv : Str × Str) :
    (entryLine kv).take (escape kv.1).length = escape kv.1 := by
  unfold entryLine
  exact List.take_left _ _

theorem drop_entryLine (kv : Str × Str) :
    (entryLine kv).drop ((escape kv.1).length + 1) = escape kv.2 := by
  have he : entryLine kv = (escape kv.1 ++ ['=']) ++ escape kv.2 := by
    unfold entryLine
    simp
  have hlen : (escape kv.1 ++ ['=']).length = (escape kv.1).length + 1 := by simp
  rw [he, ← hlen, List.drop_left]

theorem parseLine_entryLine {kv : Str × Str} (hk : goodKey kv.1 = true)
    (hv : goodToken kv.2 = true) : parseLine (entryLine kv) = some kv := by
  have hne := entryLine_ne_nil kv
  have hhead : ¬((entryLine kv).head? = some '#' ∨ (entryLine kv).head? = some '!') := by
    rintro (h | h)
    · exact (entryLine_head? hk h).2.1 rfl
    · exact (entryLine_head? hk h).2.2 rfl
  unfold parseLine
  rw [if_neg hne, if_neg hhead, findExplicitSep_entryLine (goodKey_spec hk).1]
  show some ((normalize ((entryLine kv).take (escape kv.1).length)),
    (normalize ((entryLine kv).drop ((escape kv.1).length + 1)))) = some kv
  rw [take_entryLine, drop_entryLine,
    normalize_escape (fun c hc => ((goodToken_spec (goodKey_spec hk).1).2 c hc).1),
    normalize_escape (fun c hc => ((goodToken_spec hv).2 c hc).1)]

/-! ## Ordered-map lemmas -/

theorem insertProp_fresh {props : PropMap} {k : Str} (v : Str)
    (h : k ∉ props.map Prod.fst) : insertProp props k v = props ++ [(k, v)] := by
  induction props with
  | nil => rfl
  | cons kv rest ih =>
    have hne : kv.1 ≠ k := by
      intro e
      exact h (by simp [e])
    show insertProp (kv :: rest) k v = kv :: (rest ++ [(k, v)])
    rw [show insertProp (kv :: rest) k v =
        if kv.1 = k then (kv.1, v) :: rest else (kv.1, kv.2) :: insertProp rest k v from rfl,
      if_neg hne, ih (fun hm => h (by simp [hm]))]

theorem insertProp_keys_mem {props : PropMap} {k : Str} (v : Str)
    (h : k ∈ props.map Prod.fst) :
    (insertProp props k v).map Prod.fst = props.map Prod.fst ∧
      lookupProp (insertProp props k v) k = some v := by
  induction props with
  | nil => simp at h
  | cons kv rest ih =>
    obtain ⟨k1, v1⟩ := kv
    by_cases he : k1 = k
    · constructor
      · simp [insertProp, he]
      · simp [insertProp, he, lookupProp]
    · have hm : k ∈ rest.map Prod.fst := by
        simp at h
        rcases h with h | h
        · exact absurd h.symm he
        · simpa using h
      rcases ih hm with ⟨ih1, ih2⟩
      constructor
      · simp [insertProp, he, ih1]
      · simp [insertProp, he, lookupProp, ih2]

theorem insertProp_keys (props : PropMap) (k : Str) (v : Str) :
    (insertProp props k v).map Prod.fst =
      if k ∈ props.map Prod.fst then props.map Prod.fst
      else props.map Prod.fst ++ [k] := by
  by_cases h : k ∈ props.map Prod.fst
  · rw [if_pos h, (insertProp_keys_mem v h).1]
  · rw [if_neg h, insertProp_fresh v h]
    simp

theorem insertProp_nodup {props : PropMap} {k : Str} (v : Str)
    (h : (props.map Prod.fst).Nodup) : ((insertProp props k v).map Prod.fst).Nodup := by
  rw [insertProp_keys]
  by_cases hm : k ∈ props.map Prod.fst
  · rw [if_pos hm]
    exact h
  · rw [if_neg hm]
    simp [List.nodup_append, h, hm]

/-! ## Folding the parse loop over dumped entries -/

theorem foldl_parseStep_entries (m : PropMap) : ∀ (props : PropMap),
    (∀ kv ∈ m, goodEntry kv = true) → (m.map Prod.fst).Nodup →
    (∀ kv ∈ m, kv.1 ∉ props.map Prod.fst) →
    List.foldl parseStep props (m.map entryLine) = props ++ m := by
  induction m with
  | nil => intro props _ _ _; simp
  | cons kv rest ih =>
    intro props hgood hnodup hfresh
    have hkv : goodEntry kv = true := hgood kv (by simp)
    have hk : goodKey kv.1 = true := by
      unfold goodEntry at hkv
      exact (Bool.and_eq_true _ _ |>.mp hkv).1
    have hv : goodToken kv.2 = true := by
      unfold goodEntry at hkv
      exact (Bool.and_eq_true _ _ |>.mp hkv).2
    show List.foldl parseStep (parseStep props (entryLine kv)) (rest.map entryLine) = _
    have hstep : parseStep props (entryLine kv) = props ++ [kv] := by
      unfold parseStep
      rw [parseLine_entryLine hk hv]
      exact insertProp_fresh kv.2 (hfresh kv (by simp))
    rw [hstep, ih (props ++ [kv]) (fun kv' h => hgood kv' (by simp [h]))
      (by simpa using (List.nodup_cons.mp (by simpa using hnodup)).2) ?_]
    · simp
    · intro kv' h
      simp only [List.map_append, List.mem_append]
      rintro (hmem | hmem)
      · exact hfresh kv' (by simp [h]) hmem
      · have : kv'.1 = kv.1 := by simpa using hmem
        have hkne : kv.1 ∉ rest.map Prod.fst :=
          (List.nodup_cons.mp (by simpa using hnodup)).1
        exact hkne (this ▸ List.mem_map_of_mem Prod.fst h)

/-! ## The dump output as a flat list of lines -/

theorem dumpString_eq_flatten (props : PropMap) :
    dumpString props = (props.map dumpLine).flatten := by
  have gen : ∀ (l : PropMap) (acc : Str),
      List.foldl (fun a kv => a ++ dumpLine kv) acc l = acc ++ (l.map dumpLine).flatten := by
    intro l
    induction l with
    | nil => intro acc; simp
    | cons kv rest ih =>
      intro acc
      show List.foldl _ (acc ++ dumpLine kv) rest = _
      rw [ih]
      simp
  show List.foldl _ [] props = _
  rw [gen]
  simp

theorem dumpLine_eq_entryLine (kv : Str × Str) : dumpLine kv = entryLine kv ++ ['\n'] := by
  unfold dumpLine entryLine
  simp

theorem entryLine_no_linebreak {kv : Str × Str} (hk : goodKey kv.1 = true)
    (hv : goodToken kv.2 = true) : ∀ c ∈ entryLine kv, isLineBreak c = false := by
  intro c hc
  unfold entryLine at hc
  simp only [List.mem_append, List.mem_cons] at hc
  rcases hc with hc | hc | hc
  · rcases escape_mem hc with h | h
    · rw [h]; decide
    · exact (goodToken_spec (goodKey_spec hk).1).1 c h
  · rw [hc]; decide
  · rcases escape_mem hc with h | h
    · rw [h]; decide
    · exact (goodToken_spec hv).1 c h

/-! ## The round trip on maps of good entries -/

theorem goodEntry_spec {kv : Str × Str} (h : goodEntry kv = true) :
    goodKey kv.1 = true ∧ goodToken kv.2 = true := by
  unfold goodEntry at h
  exact Bool.and_eq_true _ _ |>.mp h

theorem loadFromString_dumpString (m : PropMap) (hg : ∀ kv ∈ m, goodEntry kv = true)
    (hnd : (m.map Prod.fst).Nodup) : loadFromString (dumpString m) = m := by
  unfold loadFromString
  rw [dumpString_eq_flatten]
  have hfun : dumpLine = fun kv => entryLine kv ++ ['\n'] := funext dumpLine_eq_entryLine
  rw [hfun]
  have hmm : (m.map entryLine).map (· ++ ['\n']) = m.map (fun kv => entryLine kv ++ ['\n']) := by
    rw [List.map_map]
    rfl
  rw [← hmm]
  rw [splitlines_join (m.map entryLine) ?_]
  · unfold parseProps
    rw [coalesceLines_clean (m.map entryLine) ?_]
    · rw [foldl_parseStep_entries m [] hg hnd (by simp)]
      simp
    · intro l hl
      rcases List.mem_map.mp hl with ⟨kv, hkv, he⟩
      rcases goodEntry_spec (hg kv hkv) with ⟨hk, hv⟩
      exact he ▸ ⟨entryLine_strip hk hv, entryLine_not_cont hk hv⟩
  · intro l hl
    rcases List.mem_map.mp hl with ⟨kv, hkv, he⟩
    rcases goodEntry_spec (hg kv hkv) with ⟨hk, hv⟩
    exact he ▸ entryLine_no_linebreak hk hv

/-! ## Absence of separators, and the space fallback -/

theorem findExplicitSep_none {l : Str}
    (h : ∀ i, i < l.length → unescapedSepAt l i = false) : findExplicitSep l = none := by
  cases hf : findExplicitSep l with
  | none => rfl
  | some p =>
    rcases (findExplicitSep_iff l p).mp hf with ⟨h1, _⟩
    have hp : p < l.length := by
      unfold unescapedSepAt sepFrom at h1
      rcases Bool.and_eq_true _ _ |>.mp h1 with ⟨ha, _⟩
      cases hg : l[p]? with
      | none => rw [hg] at ha; simp [Option.any] at ha
      | some c =>
        rcases List.getElem?_eq_some.mp hg with ⟨hlt, _⟩
        exact hlt
    rw [h p hp] at h1
    exact absurd h1 (by simp)

theorem findSpace_some {l : Str} {p : Nat} (h1 : l[p]? = some ' ')
    (h2 : ∀ j, j < p → l[j]? ≠ some ' ') : findSpace l = some p := by
  unfold findSpace
  rw [List.findIdx?_eq_some_iff_getElem]
  rcases List.getElem?_eq_some.mp h1 with ⟨hlt, hg⟩
  refine ⟨hlt, by simp [hg], ?_⟩
  intro j hj hc
  apply h2 j hj
  have hje : l[j] = ' ' := by simpa using hc
  rw [List.getElem?_eq_some]
  exact ⟨by omega, hje⟩

theorem findSpace_none {l : Str} (h : ∀ c ∈ l, c ≠ ' ') : findSpace l = none := by
  unfold findSpace
  rw [List.findIdx?_eq_none_iff]
  intro x hx
  simpa using h x hx

/-! ## The parse loop keeps keys unique -/

theorem foldl_parseStep_nodup (ls : List Str) : ∀ (props : PropMap),
    (props.map Prod.fst).Nodup → ((List.foldl parseStep props ls).map Prod.fst).Nodup := by
  induction ls with
  | nil => intro props h; exact h
  | cons l ls' ih =>
    intro props h
    show ((List.foldl parseStep (parseStep props l) ls').map Prod.fst).Nodup
    apply ih
    unfold parseStep
    cases parseLine l with
    | none => exact h
    | some kv => exact insertProp_nodup kv.2 h

theorem parseProps_nodup (lines : List Str) : ((parseProps lines).map Prod.fst).Nodup := by
  unfold parseProps
  exact foldl_parseStep_nodup _ [] (by simp)

/-! ## Trailing continuations are discarded -/

theorem coalesceLines_append_conts (pre conts : List Str)
    (h : ∀ l ∈ conts, contLine l) : coalesceLines (pre ++ conts) = coalesceLines pre := by
  unfold coalesceLines
  rw [coalState_append, coalState_all_cont conts _ h]
  simp

theorem parseProps_append_conts (pre conts : List Str)
    (h : ∀ l ∈ conts, contLine l) : parseProps (pre ++ conts) = parseProps pre := by
  unfold parseProps
  rw [coalesceLines_append_conts pre conts h]

/-! ## A completed continuation group -/

theorem coalesceLines_cont_group (conts : List Str) (fin : Str) (rest : List Str)
    (hc : ∀ l ∈ conts, contLine l) (hf : ¬ contLine fin)
    (hne : (conts.map contPart).flatten ≠ []) :
    coalesceLines (conts ++ fin :: rest) =
      ((conts.map contPart).flatten ++ rstrip fin) :: coalesceLines rest := by
  unfold coalesceLines
  rw [coalState_append, coalState_all_cont conts [] hc]
  simp only [List.nil_append]
  rw [coalState_flush hf, if_neg hne]

/-! ## An all-whitespace continuation line contributes nothing -/

theorem lstrip_space_append {w : Str} (h : ∀ c ∈ w, isSpace c = true) (s : Str) :
    lstrip (w ++ s) = lstrip s := by
  induction w with
  | nil => rfl
  | cons c w' ih =>
    have hc : isSpace c = true := h c (by simp)
    show lstrip (c :: (w' ++ s)) = lstrip s
    rw [show lstrip (c :: (w' ++ s)) = lstrip (w' ++ s) from by
      simp [lstrip, List.dropWhile_cons, hc]]
    exact ih (fun d hd => h d (by simp [hd]))

theorem strip_space_backslash {w : Str} (h : ∀ c ∈ w, isSpace c = true) :
    strip (w ++ ['\\']) = ['\\'] := by
  unfold strip
  rw [lstrip_space_append h]
  rw [show lstrip ['\\'] = ['\\'] from by
    simp [lstrip, List.dropWhile_cons, isSpace_backslash]]
  apply rstrip_eq_self
  intro c hc
  have : c = '\\' := by simpa using hc.symm
  rw [this]
  exact isSpace_backslash

/-! ## Claim theorems -/

/-- Claim C1, counterexample: the round trip is not the identity on every
PropertyMap whose keys avoid a leading `#`/`!`.  For the map
`{"k": "a\nb"}` — whose key starts with neither marker and whose interior
newline is an “arbitrary interior character” — dumping escapes the newline
as `\<newline>`, `splitlines` then cuts the line right after the backslash,
the coalescer treats it as a continuation, and loading returns
`{"k": "ab"}`, not the original map. -/
theorem claim_C1_counterexample :
    "k".toList.head? ≠ some '#' ∧ "k".toList.head? ≠ some '!' ∧
    loadFromString (dumpString [("k".toList, "a\nb".toList)]) = [("k".toList, "ab".toList)] ∧
    loadFromString (dumpString [("k".toList, "a\nb".toList)]) ≠ [("k".toList, "a\nb".toList)] := by
  decide

/-- Claim C1, amended: for every PropertyMap with distinct keys in which no
key begins with `#` or `!`, no key or value contains a line-break character,
and no key or value ends in a whitespace character or a backslash, loading
the text produced by dumping the map yields a map equal to the original
(same entries, same order). -/
theorem claim_C1_amended (m : PropMap) (hg : ∀ kv ∈ m, goodEntry kv = true)
    (hnd : (m.map Prod.fst).Nodup) : loadFromString (dumpString m) = m :=
  loadFromString_dumpString m hg hnd

/-- Claim C1, amended, witness at the concrete two-entry map
`{"a b": "c=d", "k:2": " x"}`. -/
theorem claim_C1_amended_witness :
    (∀ kv ∈ ([("a b".toList, "c=d".toList), ("k:2".toList, " x".toList)] : PropMap),
      goodEntry kv = true) ∧
    (([("a b".toList, "c=d".toList), ("k:2".toList, " x".toList)] : PropMap).map
      Prod.fst).Nodup ∧
    loadFromString (dumpString [("a b".toList, "c=d".toList), ("k:2".toList, " x".toList)]) =
      [("a b".toList, "c=d".toList), ("k:2".toList, " x".toList)] :=
  ⟨by decide, by decide, claim_C1_amended _ (by decide) (by decide)⟩

/-- Claim C2: on a non-empty logical line starting with neither `#` nor `!`,
if position `p` holds the leftmost `=` or `:` not immediately preceded by a
backslash, the classifier returns the normalized text before `p` as the key
and the normalized text after `p` as the value; in particular `"a:b=c"`
parses to `("a", "b=c")` and `"a\:b=c"` parses to `("a:b", "c")`. -/
theorem claim_C2 :
    (∀ (l : Str) (p : Nat), l ≠ [] → l.head? ≠ some '#' → l.head? ≠ some '!' →
      unescapedSepAt l p = true → (∀ j, j < p → unescapedSepAt l j = false) →
      parseLine l = some (normalize (l.take p), normalize (l.drop (p + 1)))) ∧
    parseLine "a:b=c".toList = some ("a".toList, "b=c".toList) ∧
    parseLine "a\\:b=c".toList = some ("a:b".toList, "c".toList) := by
  refine ⟨?_, by decide, by decide⟩
  intro l p h1 h2 h3 h4 h5
  have hcomment : ¬(l.head? = some '#' ∨ l.head? = some '!') := by
    rintro (h | h)
    exacts [h2 h, h3 h]
  unfold parseLine
  rw [if_neg h1, if_neg hcomment, (findExplicitSep_iff l p).mpr ⟨h4, h5⟩]

/-- Claim C2, witness at the line `"a:b=c"` with separator position 1. -/
theorem claim_C2_witness :
    ("a:b=c".toList ≠ []) ∧ unescapedSepAt "a:b=c".toList 1 = true ∧
    (∀ j, j < 1 → unescapedSepAt "a:b=c".toList j = false) ∧
    parseLine "a:b=c".toList =
      some (normalize ("a:b=c".toList.take 1), normalize ("a:b=c".toList.drop 2)) :=
  ⟨by decide, by decide, by decide,
    claim_C2.1 _ 1 (by decide) (by decide) (by decide) (by decide) (by decide)⟩

/-- Claim C3, counterexample: the general joining rule fails when every
continuation segment contributes an empty remainder.  For the physical lines
`"\"` then `" x "`, the claim predicts the logical line
`contPart "\" ++ rstrip " x " = " x"` (final segment keeping its leading
whitespace), but the coalescer yields `"x"`, stripped on both sides. -/
theorem claim_C3_counterexample :
    contLine "\\".toList ∧ ¬ contLine " x ".toList ∧
    contPart "\\".toList ++ rstrip " x ".toList = " x".toList ∧
    coalesceLines ["\\".toList, " x ".toList] = ["x".toList] ∧
    ("x".toList : Str) ≠ " x".toList := by
  decide

/-- Claim C3, amended: the coalescer joins consecutive continuation lines
(stripped, trailing backslash removed) with the final physical line
(trailing whitespace removed, leading whitespace kept) into one yielded
logical line, provided the continuation segments contribute a non-empty
remainder — otherwise the buffer is still empty at the final line and that
line is stripped on both sides instead.  In particular the raw lines
`"a=1\"` followed by `"2"` load to key `"a"` with value `"12"`. -/
theorem claim_C3_amended :
    (∀ (conts : List Str) (fin : Str) (rest : List Str),
      (∀ l ∈ conts, contLine l) → ¬ contLine fin →
      (conts.map contPart).flatten ≠ [] →
      coalesceLines (conts ++ fin :: rest) =
        ((conts.map contPart).flatten ++ rstrip fin) :: coalesceLines rest) ∧
    parseProps ["a=1\\".toList, "2".toList] = [("a".toList, "12".toList)] :=
  ⟨coalesceLines_cont_group, by decide⟩

/-- Claim C3, amended, witness at the raw lines `"a=1\"` then `"2"`. -/
theorem claim_C3_amended_witness :
    (∀ l ∈ ["a=1\\".toList], contLine l) ∧ ¬ contLine "2".toList ∧
    (["a=1\\".toList].map contPart).flatten ≠ [] ∧
    coalesceLines (["a=1\\".toList] ++ ["2".toList]) =
      ((["a=1\\".toList].map contPart).flatten ++ rstrip "2".toList) :: coalesceLines [] :=
  ⟨by decide, by decide, by decide,
    claim_C3_amended.1 _ _ _ (by decide) (by decide) (by decide)⟩

/-- Claim C4: on a non-empty, non-comment logical line with no unescaped `=`
or `:`, the classifier splits at the first plain space — key is the
normalized text before it, value the normalized text from the space onward —
and if there is no space either, the whole normalized line is the key and
the value is empty; `"foo bar"` parses to `("foo", "bar")`. -/
theorem claim_C4 :
    (∀ (l : Str) (p : Nat), l ≠ [] → l.head? ≠ some '#' → l.head? ≠ some '!' →
      (∀ i, i < l.length → unescapedSepAt l i = false) →
      l[p]? = some ' ' → (∀ j, j < p → l[j]? ≠ some ' ') →
      parseLine l = some (normalize (l.take p), normalize (l.drop p))) ∧
    (∀ (l : Str), l ≠ [] → l.head? ≠ some '#' → l.head? ≠ some '!' →
      (∀ i, i < l.length → unescapedSepAt l i = false) →
      (∀ c ∈ l, c ≠ ' ') →
      parseLine l = some (normalize l, [])) ∧
    parseLine "foo bar".toList = some ("foo".toList, "bar".toList) := by
  refine ⟨?_, ?_, by decide⟩
  · intro l p h1 h2 h3 hsep hsp1 hsp2
    have hcomment : ¬(l.head? = some '#' ∨ l.head? = some '!') := by
      rintro (h | h)
      exacts [h2 h, h3 h]
    unfold parseLine
    rw [if_neg h1, if_neg hcomment, findExplicitSep_none hsep, findSpace_some hsp1 hsp2]
  · intro l h1 h2 h3 hsep hsp
    have hcomment : ¬(l.head? = some '#' ∨ l.head? = some '!') := by
      rintro (h | h)
      exacts [h2 h, h3 h]
    unfold parseLine
    rw [if_neg h1, if_neg hcomment, findExplicitSep_none hsep, findSpace_none hsp]

/-- Claim C4, witness at the line `"foo bar"` with space position 3. -/
theorem claim_C4_witness :
    ("foo bar".toList[3]? = some ' ') ∧
    (∀ i, i < "foo bar".toList.length → unescapedSepAt "foo bar".toList i = false) ∧
    parseLine "foo bar".toList =
      some (normalize ("foo bar".toList.take 3), normalize ("foo bar".toList.drop 3)) :=
  ⟨by decide, by decide,
    claim_C4.1 _ 3 (by decide) (by decide) (by decide) (by decide) (by decide) (by decide)⟩

/-- Claim C5: dump produces one line `escaped_key=escaped_value` followed by
a newline per map entry, concatenated in the map's insertion order, where
escaping inserts a backslash before every `=`, `:` and whitespace character
of the token; dumping `{"a b": "c=d"}` produces the line `a\ b=c\=d`. -/
theorem claim_C5 :
    (∀ props : PropMap, dumpString props =
      (props.map (fun kv => escape kv.1 ++ '=' :: (escape kv.2 ++ ['\n']))).flatten) ∧
    (∀ t : Str, escape t =
      (t.map (fun c => if classChar c then ['\\', c] else [c])).flatten) ∧
    dumpString [("a b".toList, "c=d".toList)] = "a\\ b=c\\=d\n".toList := by
  refine ⟨?_, ?_, by decide⟩
  · intro props
    exact dumpString_eq_flatten props
  · intro t
    induction t with
    | nil => rfl
    | cons c rest ih =>
      by_cases hc : classChar c = true
      · rw [escape_cons_class hc]
        simp [hc, ih]
      · rw [escape_cons_plain (by simpa using hc)]
        simp [hc, ih]

/-- Claim C6: if the raw-line input ends in a run of continuation lines
(each stripped line ending in a backslash), the pending buffer is silently
discarded: the coalescer yields exactly the logical lines of the prefix, and
the loaded map is the same as without the trailing run. -/
theorem claim_C6 (pre conts : List Str) (h : ∀ l ∈ conts, contLine l) :
    coalesceLines (pre ++ conts) = coalesceLines pre ∧
    parseProps (pre ++ conts) = parseProps pre :=
  ⟨coalesceLines_append_conts pre conts h, parseProps_append_conts pre conts h⟩

/-- Claim C6, witness: the trailing continuation line `" x \"` after
`"a=1"` contributes nothing. -/
theorem claim_C6_witness :
    (∀ l ∈ [" x \\".toList], contLine l) ∧
    coalesceLines (["a=1".toList] ++ [" x \\".toList]) = coalesceLines ["a=1".toList] ∧
    parseProps (["a=1".toList] ++ [" x \\".toList]) = parseProps ["a=1".toList] :=
  ⟨by decide, (claim_C6 _ _ (by decide)).1, (claim_C6 _ _ (by decide)).2⟩

/-- Claim C7: the map built by the parse loop always has pairwise-distinct
keys; inserting preserves key uniqueness; re-inserting an existing key keeps
the key sequence unchanged (the key stays at its first-insertion position)
while the lookup now returns the new value; and loading `"a=1\na=2\n"`
yields the map in which `a` maps to `"2"`. -/
theorem claim_C7 :
    (∀ lines : List Str, ((parseProps lines).map Prod.fst).Nodup) ∧
    (∀ (props : PropMap) (k v : Str), (props.map Prod.fst).Nodup →
      ((insertProp props k v).map Prod.fst).Nodup) ∧
    (∀ (props : PropMap) (k v : Str), k ∈ props.map Prod.fst →
      (insertProp props k v).map Prod.fst = props.map Prod.fst ∧
      lookupProp (insertProp props k v) k = some v) ∧
    loadFromString "a=1\na=2\n".toList = [("a".toList, "2".toList)] :=
  ⟨parseProps_nodup, fun _ _ v h => insertProp_nodup v h,
    fun _ _ v h => insertProp_keys_mem v h, by decide⟩

/-- Claim C7, witness: re-inserting key `a` into `{"a": "1"}` with value
`"2"` keeps the key list and updates the value. -/
theorem claim_C7_witness :
    ("a".toList ∈ ([("a".toList, "1".toList)] : PropMap).map Prod.fst) ∧
    (insertProp [("a".toList, "1".toList)] "a".toList "2".toList).map Prod.fst =
      ([("a".toList, "1".toList)] : PropMap).map Prod.fst ∧
    lookupProp (insertProp [("a".toList, "1".toList)] "a".toList "2".toList) "a".toList =
      some "2".toList :=
  ⟨by decide, (claim_C7.2.2.1 _ _ _ (by decide)).1, (claim_C7.2.2.1 _ _ _ (by decide)).2⟩

/-- Claim C8: load fails with the input-type error exactly when its argument
is neither a readable object nor a string, dump fails exactly when its
destination is neither a writable object nor a path string, and the textual
content itself never causes a failure: every string loads to a map and every
map dumps to text. -/
theorem claim_C8 :
    (∀ d : LoadSource, (∃ e, load d = .error e) ↔ ∀ c, d ≠ .stream c ∧ d ≠ .text c) ∧
    (∀ (props : PropMap) (d : DumpDest),
      (∃ e, dump props d = .error e) ↔ (d ≠ .stream ∧ ∀ p, d ≠ .path p)) ∧
    (∀ s, load (.stream s) = .ok (loadFromString s) ∧
      load (.text s) = .ok (loadFromString s)) ∧
    (∀ props : PropMap, dump props .stream = .ok (dumpString props) ∧
      ∀ p, dump props (.path p) = .ok (dumpString props)) := by
  refine ⟨?_, ?_, fun s => ⟨rfl, rfl⟩, fun props => ⟨rfl, fun p => rfl⟩⟩
  · intro d
    cases d with
    | stream c =>
      constructor
      · rintro ⟨e, he⟩
        exact absurd he (by simp [load])
      · intro h
        exact absurd rfl (h c).1
    | text c =>
      constructor
      · rintro ⟨e, he⟩
        exact absurd he (by simp [load])
      · intro h
        exact absurd rfl (h c).2
    | invalid descr =>
      constructor
      · intro _ c
        exact ⟨by simp, by simp⟩
      · intro _
        exact ⟨loadErrorMsg descr, rfl⟩
  · intro props d
    cases d with
    | stream =>
      constructor
      · rintro ⟨e, he⟩
        exact absurd he (by simp [dump])
      · intro h
        exact absurd rfl h.1
    | path p =>
      constructor
      · rintro ⟨e, he⟩
        exact absurd he (by simp [dump])
      · intro h
        exact absurd rfl (h.2 p)
    | invalid descr =>
      constructor
      · intro _
        exact ⟨by simp, fun p => by simp⟩
      · intro _
        exact ⟨dumpErrorMsg descr, rfl⟩

/-- Claim C10: a physical line made of whitespace followed by a single
backslash leaves an empty accumulation buffer, so the next non-continuation
physical line is treated as a fresh plain line and stripped on both sides
(rather than keeping its leading whitespace as a continuation tail would). -/
theorem claim_C10 (w l : Str) (rest : List Str) (hw : ∀ c ∈ w, isSpace c = true)
    (hl : ¬ contLine l) :
    coalesceLines ((w ++ ['\\']) :: l :: rest) = strip l :: coalesceLines rest := by
  have hstrip := strip_space_backslash hw
  have hcont : contLine (w ++ ['\\']) := by
    unfold contLine
    rw [hstrip]
    rfl
  unfold coalesceLines
  rw [coalState_cont hcont]
  rw [show contPart (w ++ ['\\']) = [] from by unfold contPart; rw [hstrip]; rfl]
  simp only [List.append_nil]
  rw [coalState_flush hl, if_pos rfl]

/-- Claim C10, witness at the lines `" \"` then `" b "` then `"c=d"`. -/
theorem claim_C10_witness :
    (∀ c ∈ [' '], isSpace c = true) ∧ ¬ contLine " b ".toList ∧
    coalesceLines (([' '] ++ ['\\']) :: " b ".toList :: ["c=d".toList]) =
      strip " b ".toList :: coalesceLines ["c=d".toList] :=
  ⟨by decide, by decide, claim_C10 _ _ _ (by decide) (by decide)⟩

end Properties
